import Mathlib

/-!
Shallow embedding of the LruCache TypeScript library (src/src/lrucache).

The TS implementation fuses an ES6 `Map` (`accessMap`) with a doubly linked
list of `LruCacheNode`s bounded by two sentinel nodes.  The embedding
abstracts the pointer structure to the Lean list of the non-sentinel nodes
read from `head.next` to `tail.previous` (most-recently-used first); the two
sentinels carry no data and only eliminate empty-list special cases, so they
have no counterpart in the model.  Each node keeps the optional `key` and
`value` fields of `LruCacheNode` (`undefined` is modelled as `none`); the
ES6 `Map` is modelled as an association list in insertion order, with
`mapLookup` / `mapSet` / `mapDelete` mirroring `Map.get` / `Map.set` /
`Map.delete`.  Pointer identity of a node is tracked by its `key` field,
which is justified on reachable states by the key-uniqueness invariant
proved below.
-/

namespace LruSpec

/-- The content of a non-sentinel `LruCacheNode`: its optional `key` and
optional `value` fields (`none` models `undefined`). -/
abbrev Node (K V : Type) := Option K × Option V

/-- The state of an `LruCache` instance: the `capacity` constructor argument,
the nodes of the doubly linked list from `head.next` to `tail.previous`
(most recently used first), and the `accessMap` as an association list in
insertion order. -/
structure LruCache (K V : Type) where
  capacity : Nat
  list : List (Node K V)
  accessMap : List (K × Node K V)
deriving DecidableEq

variable {K V : Type} [DecidableEq K]

/-- ES6 `Map.get`: the value stored under the first (unique) matching key. -/
def mapLookup {β : Type} : List (K × β) → K → Option β
  | [], _ => none
  | (k1, n) :: rest, k => if k1 = k then some n else mapLookup rest k

/-- ES6 `Map.set`: replace the entry of an existing key in place, otherwise
append a new entry. -/
def mapSet {β : Type} : List (K × β) → K → β → List (K × β)
  | [], k, n => [(k, n)]
  | (k1, n1) :: rest, k, n =>
      if k1 = k then (k, n) :: rest else (k1, n1) :: mapSet rest k n

/-- ES6 `Map.delete`: remove the entry of the key if present; the boolean
reports whether an entry was removed. -/
def mapDelete {β : Type} : List (K × β) → K → Bool × List (K × β)
  | [], _ => (false, [])
  | (k1, n1) :: rest, k =>
      if k1 = k then (true, rest)
      else ((mapDelete rest k).1, (k1, n1) :: (mapDelete rest k).2)

/-- `LruCache.unlink(node)`: splice the node out of the list.  The node is
identified by its `key` field (pointer identity coincides with key identity
on reachable states by the key-uniqueness invariant). -/
def eraseNode : List (Node K V) → Option K → List (Node K V)
  | [], _ => []
  | nd :: rest, ko => if nd.1 = ko then rest else nd :: eraseNode rest ko

/-- The in-place mutation `node.value = value` of the node whose `key` field
is `ko`, as seen through the list (the map and the list alias the same
node object in TS). -/
def setValue (l : List (Node K V)) (ko : Option K) (v : Option V) :
    List (Node K V) :=
  l.map (fun nd => if nd.1 = ko then (nd.1, v) else nd)

/-- `LruCache.size`: the entry count of the access map. -/
def size (c : LruCache K V) : Nat := c.accessMap.length

/-- `LruCache.isEmpty()`: `size == 0`. -/
def isEmpty (c : LruCache K V) : Bool := size c == 0

/-- `LruCache.firstNode`: `undefined` when the cache is empty, otherwise
`head.next`. -/
def firstNode (c : LruCache K V) : Option (Node K V) :=
  if isEmpty c then none else c.list.head?

/-- `LruCache.linkToHead(newNode)`: splice the node between `head` and
`head.next` (its precondition on the sentinel links always holds in the
model). -/
def linkToHead (c : LruCache K V) (nd : Node K V) : LruCache K V :=
  { c with list := nd :: c.list }

/-- `LruCache.unlinkFromTail()`: `undefined` when the cache is empty,
otherwise unlink and return `tail.previous`. -/
def unlinkFromTail (c : LruCache K V) : Option (Node K V) × LruCache K V :=
  if isEmpty c then (none, c)
  else (c.list.getLast?, { c with list := c.list.dropLast })

/-- `LruCache.moveNodeToHead(node)`: a no-op when the node is already the
first node, otherwise `unlink` then `linkToHead`. -/
def moveNodeToHead (c : LruCache K V) (nd : Node K V) : LruCache K V :=
  if (firstNode c).map Prod.fst = some nd.1 then c
  else linkToHead { c with list := eraseNode c.list nd.1 } nd

/-- `LruCache.discardLeastRecentlyUsed()`: unlink the tail node; when a node
was unlinked and its `key` field is defined, delete it from the access map;
report success as the conjunction of the three steps (with the short-circuit
of `&&`). -/
def discardLeastRecentlyUsed (c : LruCache K V) : Bool × LruCache K V :=
  match unlinkFromTail c with
  | (none, c1) => (false, c1)
  | (some nd, c1) =>
      match nd.1 with
      | none => (false, c1)
      | some k =>
          ((mapDelete c1.accessMap k).1,
           { c1 with accessMap := (mapDelete c1.accessMap k).2 })

/-- The two exceptions `LruCache.put` can throw. -/
inductive PutError where
  | invalidKey : PutError
  | evictionFailure : PutError
deriving DecidableEq

/-- `LruCache.put(key, value)`.  The result pairs the state of the cache
after the call (the state the caller still holds when an exception
propagates) with the exception thrown, if any.  An `undefined` key throws
before any mutation; an `undefined` value returns at once; an existing key
has its node's value mutated in place (visible through both the map and the
list, which alias the node) and the node moved to the head; a new key is
inserted directly when there is room, otherwise after a successful
`discardLeastRecentlyUsed`, and the eviction-failure branch throws. -/
def put (c : LruCache K V) (key : Option K) (value : Option V) :
    LruCache K V × Option PutError :=
  match key with
  | none => (c, some PutError.invalidKey)
  | some k =>
    match value with
    | none => (c, none)
    | some v =>
      match mapLookup c.accessMap k with
      | some nd =>
          let nd1 : Node K V := (nd.1, some v)
          let c1 : LruCache K V :=
            { c with accessMap := mapSet c.accessMap k nd1,
                     list := setValue c.list nd.1 (some v) }
          (moveNodeToHead c1 nd1, none)
      | none =>
          let newNode : Node K V := (some k, some v)
          if size c < c.capacity then
            ({ c with accessMap := mapSet c.accessMap k newNode,
                      list := newNode :: c.list }, none)
          else
            match discardLeastRecentlyUsed c with
            | (true, c1) =>
                ({ c1 with accessMap := mapSet c1.accessMap k newNode,
                           list := newNode :: c1.list }, none)
            | (false, c1) => (c1, some PutError.evictionFailure)

/-- `LruCache.get(key)`: on a hit, move the node to the head and return its
value (the trailing `value !== undefined ? value : undefined` of the source
is the identity on the modelled value); on a miss, return `undefined` and
touch nothing. -/
def get (c : LruCache K V) (k : K) : Option V × LruCache K V :=
  match mapLookup c.accessMap k with
  | none => (none, c)
  | some nd => (nd.2, moveNodeToHead c nd)

/-- `LruCache.delete(key)`: on a hit, unlink the node, delete the key from
the access map and return the node's value; on a miss, return `undefined`. -/
def delete (c : LruCache K V) (k : K) : Option V × LruCache K V :=
  match mapLookup c.accessMap k with
  | none => (none, c)
  | some nd =>
      (nd.2, { c with list := eraseNode c.list nd.1,
                      accessMap := (mapDelete c.accessMap k).2 })

/-- `LruCache.reset()`: a fresh access map and the two sentinels relinked to
each other (an empty node list). -/
def reset (c : LruCache K V) : LruCache K V :=
  { c with accessMap := [], list := [] }

/-- The `LruCache` constructor: rejects a capacity below one (the
`Number.isInteger` check of the source is subsumed by the `Nat` type of the
model), otherwise produces the empty cache. -/
def mkLruCache (K V : Type) (capacity : Nat) : Option (LruCache K V) :=
  if capacity < 1 then none
  else some { capacity := capacity, list := [], accessMap := [] }

/-- The cache states reachable from construction by any sequence of `put`,
`get`, `delete` and `reset` calls (each step continues from the state the
caller holds after the call, whether or not the call threw). -/
inductive Reachable : LruCache K V → Prop where
  | init : ∀ (capacity : Nat) (c : LruCache K V),
      mkLruCache K V capacity = some c → Reachable c
  | putStep : ∀ (c : LruCache K V) (key : Option K) (value : Option V),
      Reachable c → Reachable (put c key value).1
  | getStep : ∀ (c : LruCache K V) (k : K),
      Reachable c → Reachable (get c k).2
  | deleteStep : ∀ (c : LruCache K V) (k : K),
      Reachable c → Reachable (delete c k).2
  | resetStep : ∀ (c : LruCache K V),
      Reachable c → Reachable (reset c)

/-- The internal consistency invariant of the cache: positive capacity, the
size bound, agreement of the map and list entry counts, key uniqueness in
both structures, and the map/list correspondence (every mapping's node
carries that mapping's key and a defined value and sits in the list, and
every listed node is the node of exactly its key's mapping). -/
structure Inv (c : LruCache K V) : Prop where
  capPos : 1 ≤ c.capacity
  sizeLe : c.accessMap.length ≤ c.capacity
  lenEq : c.accessMap.length = c.list.length
  mapKeysNodup : (c.accessMap.map Prod.fst).Nodup
  listKeysNodup : (c.list.map Prod.fst).Nodup
  lookupKey : ∀ k nd, mapLookup c.accessMap k = some nd → nd.1 = some k
  lookupVal : ∀ k nd, mapLookup c.accessMap k = some nd → nd.2 ≠ none
  lookupMem : ∀ k nd, mapLookup c.accessMap k = some nd → nd ∈ c.list
  memLookup : ∀ nd, nd ∈ c.list →
      ∃ k, nd.1 = some k ∧ mapLookup c.accessMap k = some nd

end LruSpec

namespace LruSpec

variable {K V : Type} [DecidableEq K]

section MapLemmas

variable {β : Type}

theorem mapLookup_eq_none_iff {m : List (K × β)} {k : K} :
    mapLookup m k = none ↔ k ∉ m.map Prod.fst := by
  induction m with
  | nil => simp [mapLookup]
  | cons p rest ih =>
      obtain ⟨k1, n⟩ := p
      by_cases h : k1 = k
      · subst h; simp [mapLookup]
      · simp [mapLookup, h, ih, Ne.symm h]

theorem mapLookup_isSome_iff {m : List (K × β)} {k : K} :
    (mapLookup m k).isSome = true ↔ k ∈ m.map Prod.fst := by
  constructor
  · intro h
    by_contra hk
    rw [mapLookup_eq_none_iff.mpr hk] at h
    simp at h
  · intro h
    by_contra hs
    rw [Option.not_isSome_iff_eq_none] at hs
    exact (mapLookup_eq_none_iff.mp hs) h

theorem mapSet_lookup_self {m : List (K × β)} {k : K} {n : β} :
    mapLookup (mapSet m k n) k = some n := by
  induction m with
  | nil => simp [mapSet, mapLookup]
  | cons p rest ih =>
      obtain ⟨k1, n1⟩ := p
      by_cases h : k1 = k
      · subst h; simp [mapSet, mapLookup]
      · simp [mapSet, mapLookup, h, ih]

theorem mapSet_lookup_ne {m : List (K × β)} {k k1 : K} {n : β}
    (h : k1 ≠ k) : mapLookup (mapSet m k n) k1 = mapLookup m k1 := by
  induction m with
  | nil => simp [mapSet, mapLookup, Ne.symm h]
  | cons p rest ih =>
      obtain ⟨k2, n2⟩ := p
      by_cases h2 : k2 = k
      · subst h2
        simp [mapSet, mapLookup, Ne.symm h]
      · by_cases h3 : k2 = k1 <;>
          simp [mapSet, mapLookup, h, h2, h3, ih]

theorem mapSet_keys_of_mem {m : List (K × β)} {k : K} {n : β}
    (h : k ∈ m.map Prod.fst) :
    (mapSet m k n).map Prod.fst = m.map Prod.fst := by
  induction m with
  | nil => simp at h
  | cons p rest ih =>
      obtain ⟨k1, n1⟩ := p
      by_cases h1 : k1 = k
      · subst h1; simp [mapSet]
      · rw [List.map_cons] at h
        rcases List.mem_cons.mp h with h2 | h2
        · exact absurd h2.symm h1
        · simp [mapSet, h1, ih h2]

theorem mapSet_keys_of_not_mem {m : List (K × β)} {k : K} {n : β}
    (h : k ∉ m.map Prod.fst) :
    (mapSet m k n).map Prod.fst = m.map Prod.fst ++ [k] := by
  induction m with
  | nil => simp [mapSet]
  | cons p rest ih =>
      obtain ⟨k1, n1⟩ := p
      have h1 : k ≠ k1 := by
        intro hk
        exact h (by rw [List.map_cons]; exact hk ▸ List.mem_cons_self _ _)
      have h2 : k ∉ rest.map Prod.fst := by
        intro hk
        exact h (by rw [List.map_cons]; exact List.mem_cons_of_mem _ hk)
      simp [mapSet, Ne.symm h1, ih h2]

theorem mapDelete_fst_iff {m : List (K × β)} {k : K} :
    (mapDelete m k).1 = true ↔ k ∈ m.map Prod.fst := by
  induction m with
  | nil => simp [mapDelete]
  | cons p rest ih =>
      obtain ⟨k1, n1⟩ := p
      by_cases h : k1 = k
      · subst h; simp [mapDelete]
      · simp [mapDelete, h, ih, Ne.symm h]

theorem mapDelete_sublist {m : List (K × β)} {k : K} :
    List.Sublist (mapDelete m k).2 m := by
  induction m with
  | nil => simp [mapDelete]
  | cons p rest ih =>
      obtain ⟨k1, n1⟩ := p
      by_cases h : k1 = k
      · simp only [mapDelete, if_pos h]
        exact List.sublist_cons_self _ _
      · simp only [mapDelete, if_neg h]
        exact List.Sublist.cons₂ _ ih

theorem mapDelete_lookup_ne {m : List (K × β)} {k k1 : K}
    (h : k1 ≠ k) : mapLookup (mapDelete m k).2 k1 = mapLookup m k1 := by
  induction m with
  | nil => simp [mapDelete]
  | cons p rest ih =>
      obtain ⟨k2, n2⟩ := p
      by_cases h2 : k2 = k
      · subst h2
        simp [mapDelete, mapLookup, Ne.symm h]
      · by_cases h3 : k2 = k1 <;>
          simp [mapDelete, mapLookup, h, h2, h3, ih]

theorem mapDelete_lookup_self {m : List (K × β)} {k : K}
    (h : (m.map Prod.fst).Nodup) : mapLookup (mapDelete m k).2 k = none := by
  induction m with
  | nil => simp [mapDelete, mapLookup]
  | cons p rest ih =>
      obtain ⟨k1, n1⟩ := p
      rw [List.map_cons, List.nodup_cons] at h
      by_cases h1 : k1 = k
      · subst h1
        simp only [mapDelete, if_pos rfl]
        exact mapLookup_eq_none_iff.mpr h.1
      · simp [mapDelete, mapLookup, h1, ih h.2]

theorem mapDelete_length_of_mem {m : List (K × β)} {k : K}
    (h : k ∈ m.map Prod.fst) :
    ((mapDelete m k).2).length + 1 = m.length := by
  induction m with
  | nil => simp at h
  | cons p rest ih =>
      obtain ⟨k1, n1⟩ := p
      by_cases h1 : k1 = k
      · subst h1; simp [mapDelete]
      · rw [List.map_cons] at h
        rcases List.mem_cons.mp h with h2 | h2
        · exact absurd h2.symm h1
        · simp only [mapDelete, if_neg h1, List.length_cons]
          rw [← ih h2]

end MapLemmas

theorem eraseNode_sublist {l : List (Node K V)} {ko : Option K} :
    List.Sublist (eraseNode l ko) l := by
  induction l with
  | nil => simp [eraseNode]
  | cons nd rest ih =>
      by_cases h : nd.1 = ko
      · simp only [eraseNode, if_pos h]
        exact List.sublist_cons_self _ _
      · simp only [eraseNode, if_neg h]
        exact List.Sublist.cons₂ _ ih

theorem eraseNode_mem {l : List (Node K V)} {ko : Option K} {nd : Node K V}
    (h : nd ∈ l) (hne : nd.1 ≠ ko) : nd ∈ eraseNode l ko := by
  induction l with
  | nil => simp at h
  | cons nd1 rest ih =>
      rcases List.mem_cons.mp h with h1 | h1
      · subst h1
        simp [eraseNode, hne]
      · by_cases h2 : nd1.1 = ko
        · simp [eraseNode, h2, h1]
        · simp only [eraseNode, if_neg h2]
          exact List.mem_cons_of_mem _ (ih h1)

theorem eraseNode_key_ne {l : List (Node K V)} {ko : Option K}
    {nd : Node K V} (hnd : (l.map Prod.fst).Nodup)
    (h : nd ∈ eraseNode l ko) : nd.1 ≠ ko := by
  induction l with
  | nil => simp [eraseNode] at h
  | cons nd1 rest ih =>
      rw [List.map_cons, List.nodup_cons] at hnd
      by_cases h2 : nd1.1 = ko
      · rw [eraseNode, if_pos h2] at h
        intro hk
        apply hnd.1
        have hmem : nd.1 ∈ rest.map Prod.fst := List.mem_map_of_mem Prod.fst h
        rwa [hk, ← h2] at hmem
      · rw [eraseNode, if_neg h2] at h
        rcases List.mem_cons.mp h with h1 | h1
        · subst h1; exact h2
        · exact ih hnd.2 h1

theorem eraseNode_length_of_mem {l : List (Node K V)} {ko : Option K}
    (h : ko ∈ l.map Prod.fst) : (eraseNode l ko).length + 1 = l.length := by
  induction l with
  | nil => simp at h
  | cons nd rest ih =>
      by_cases h1 : nd.1 = ko
      · simp [eraseNode, h1]
      · rw [List.map_cons] at h
        rcases List.mem_cons.mp h with h2 | h2
        · exact absurd h2.symm h1
        · simp only [eraseNode, if_neg h1, List.length_cons]
          rw [← ih h2]

theorem setValue_length {l : List (Node K V)} {ko : Option K}
    {v : Option V} : (setValue l ko v).length = l.length := by
  simp [setValue]

theorem setValue_keys {l : List (Node K V)} {ko : Option K} {v : Option V} :
    (setValue l ko v).map Prod.fst = l.map Prod.fst := by
  induction l with
  | nil => simp [setValue]
  | cons nd rest ih =>
      by_cases h : nd.1 = ko <;>
        simpa [setValue, h] using congrArg (List.cons nd.1) ih

theorem setValue_mem {l : List (Node K V)} {ko : Option K} {v : Option V}
    {nd : Node K V} (h : nd ∈ l) :
    (if nd.1 = ko then (nd.1, v) else nd) ∈ setValue l ko v :=
  List.mem_map_of_mem _ h

theorem setValue_mem_rev {l : List (Node K V)} {ko : Option K} {v : Option V}
    {nd : Node K V} (h : nd ∈ setValue l ko v) :
    ∃ nd0 ∈ l, nd = if nd0.1 = ko then (nd0.1, v) else nd0 := by
  rcases List.mem_map.mp h with ⟨nd0, h0, heq⟩
  exact ⟨nd0, h0, heq.symm⟩

theorem getLast?_decomp {α : Type} (l : List α) (h : l ≠ []) :
    ∃ a, l.getLast? = some a ∧ l = l.dropLast ++ [a] := by
  refine ⟨l.getLast h, List.getLast?_eq_getLast l h, ?_⟩
  exact (List.dropLast_append_getLast h).symm

end LruSpec

namespace LruSpec

variable {K V : Type} [DecidableEq K]

theorem mapSet_length_of_mem {β : Type} {m : List (K × β)} {k : K} {n : β}
    (h : k ∈ m.map Prod.fst) : (mapSet m k n).length = m.length := by
  have h1 := congrArg List.length (mapSet_keys_of_mem (n := n) h)
  simpa using h1

theorem mapSet_length_of_not_mem {β : Type} {m : List (K × β)} {k : K}
    {n : β} (h : k ∉ m.map Prod.fst) :
    (mapSet m k n).length = m.length + 1 := by
  have h1 := congrArg List.length (mapSet_keys_of_not_mem (n := n) h)
  simpa using h1

/-- A key with no mapping has no node in the list (on invariant states). -/
theorem Inv.key_not_in_list {c : LruCache K V} {k : K} (hInv : Inv c)
    (hnone : mapLookup c.accessMap k = none) :
    some k ∉ c.list.map Prod.fst := by
  intro hmem
  rcases List.mem_map.mp hmem with ⟨nd, hnd, hk⟩
  rcases hInv.memLookup nd hnd with ⟨k0, hk0, hl0⟩
  rw [hk0] at hk
  cases hk
  rw [hnone] at hl0
  cases hl0

/-- `moveNodeToHead` never touches the access map or the capacity. -/
theorem moveNodeToHead_accessMap {c : LruCache K V} {nd : Node K V} :
    (moveNodeToHead c nd).accessMap = c.accessMap ∧
    (moveNodeToHead c nd).capacity = c.capacity := by
  unfold moveNodeToHead linkToHead
  split <;> exact ⟨rfl, rfl⟩

/-- `moveNodeToHead` preserves the invariant when called, as in the source,
on the node some key maps to. -/
theorem moveNodeToHead_inv {c : LruCache K V} {nd : Node K V} {k : K}
    (hInv : Inv c) (hk : nd.1 = some k)
    (hl : mapLookup c.accessMap k = some nd) :
    Inv (moveNodeToHead c nd) := by
  unfold moveNodeToHead linkToHead
  split
  · exact hInv
  · have ndmem : nd ∈ c.list := hInv.lookupMem k nd hl
    have hkeymem : nd.1 ∈ c.list.map Prod.fst :=
      List.mem_map_of_mem Prod.fst ndmem
    refine ⟨hInv.capPos, hInv.sizeLe, ?_, hInv.mapKeysNodup, ?_,
        hInv.lookupKey, hInv.lookupVal, ?_, ?_⟩
    · simp only [List.length_cons]
      rw [eraseNode_length_of_mem hkeymem]
      exact hInv.lenEq
    · simp only [List.map_cons, List.nodup_cons]
      constructor
      · intro hmem
        rcases List.mem_map.mp hmem with ⟨nd2, hnd2, hkeq⟩
        exact eraseNode_key_ne hInv.listKeysNodup hnd2 hkeq
      · exact List.Nodup.sublist
          (List.Sublist.map Prod.fst eraseNode_sublist) hInv.listKeysNodup
    · intro k1 nd2 h2
      by_cases hkk : k1 = k
      · subst hkk
        rw [hl] at h2
        cases h2
        exact List.mem_cons_self _ _
      · refine List.mem_cons_of_mem _ (eraseNode_mem
          (hInv.lookupMem k1 nd2 h2) ?_)
        rw [hInv.lookupKey k1 nd2 h2, hk]
        intro hcon
        exact hkk (Option.some.inj hcon)
    · intro nd2 h2
      rcases List.mem_cons.mp h2 with h3 | h3
      · subst h3
        exact ⟨k, hk, hl⟩
      · exact hInv.memLookup nd2 (List.Sublist.mem h3 eraseNode_sublist)

/-- `get` preserves the invariant. -/
theorem inv_get {c : LruCache K V} {k : K} (hInv : Inv c) :
    Inv (get c k).2 := by
  unfold get
  cases h : mapLookup c.accessMap k with
  | none => exact hInv
  | some nd =>
      exact moveNodeToHead_inv hInv (hInv.lookupKey k nd h) h

/-- `delete` preserves the invariant. -/
theorem inv_delete {c : LruCache K V} {k : K} (hInv : Inv c) :
    Inv (delete c k).2 := by
  unfold delete
  cases h : mapLookup c.accessMap k with
  | none => exact hInv
  | some nd =>
      have hk : nd.1 = some k := hInv.lookupKey k nd h
      have ndmem : nd ∈ c.list := hInv.lookupMem k nd h
      have hkeymem : nd.1 ∈ c.list.map Prod.fst :=
        List.mem_map_of_mem Prod.fst ndmem
      have hmapmem : k ∈ c.accessMap.map Prod.fst := by
        rw [← mapLookup_isSome_iff (m := c.accessMap)]
        rw [h]
        rfl
      refine ⟨hInv.capPos, ?_, ?_, ?_, ?_, ?_, ?_, ?_, ?_⟩
      · exact le_trans (List.Sublist.length_le mapDelete_sublist) hInv.sizeLe
      · show ((mapDelete c.accessMap k).2).length = (eraseNode c.list nd.1).length
        have h1 := mapDelete_length_of_mem (k := k) hmapmem
        have h2 := eraseNode_length_of_mem (V := V) hkeymem
        have h3 := hInv.lenEq
        omega
      · exact List.Nodup.sublist
          (List.Sublist.map Prod.fst mapDelete_sublist) hInv.mapKeysNodup
      · exact List.Nodup.sublist
          (List.Sublist.map Prod.fst eraseNode_sublist) hInv.listKeysNodup
      · intro k1 nd2 h2
        by_cases hkk : k1 = k
        · subst hkk
          rw [mapDelete_lookup_self hInv.mapKeysNodup] at h2
          cases h2
        · rw [mapDelete_lookup_ne hkk] at h2
          exact hInv.lookupKey k1 nd2 h2
      · intro k1 nd2 h2
        by_cases hkk : k1 = k
        · subst hkk
          rw [mapDelete_lookup_self hInv.mapKeysNodup] at h2
          cases h2
        · rw [mapDelete_lookup_ne hkk] at h2
          exact hInv.lookupVal k1 nd2 h2
      · intro k1 nd2 h2
        by_cases hkk : k1 = k
        · subst hkk
          rw [mapDelete_lookup_self hInv.mapKeysNodup] at h2
          cases h2
        · rw [mapDelete_lookup_ne hkk] at h2
          refine eraseNode_mem (hInv.lookupMem k1 nd2 h2) ?_
          rw [hInv.lookupKey k1 nd2 h2, hk]
          intro hcon
          exact hkk (Option.some.inj hcon)
      · intro nd2 h2
        have h3 : nd2 ∈ c.list := List.Sublist.mem h2 eraseNode_sublist
        rcases hInv.memLookup nd2 h3 with ⟨k1, hk1, hl1⟩
        have hkk : k1 ≠ k := by
          intro hkeq
          subst hkeq
          rw [h] at hl1
          cases hl1
          exact eraseNode_key_ne hInv.listKeysNodup h2 rfl
        exact ⟨k1, hk1, by rw [mapDelete_lookup_ne hkk]; exact hl1⟩

/-- `reset` preserves the invariant. -/
theorem inv_reset {c : LruCache K V} (hInv : Inv c) : Inv (reset c) := by
  refine ⟨hInv.capPos, by simp [reset], by simp [reset], by simp [reset],
      by simp [reset], ?_, ?_, ?_, ?_⟩
  · intro a b hab
    simp [reset, mapLookup] at hab
  · intro a b hab
    simp [reset, mapLookup] at hab
  · intro a b hab
    simp [reset, mapLookup] at hab
  · intro a hab
    simp [reset] at hab

/-- A fresh cache satisfies the invariant. -/
theorem inv_mk {capacity : Nat} {c : LruCache K V}
    (h : mkLruCache K V capacity = some c) : Inv c := by
  unfold mkLruCache at h
  by_cases hlt : capacity < 1
  · rw [if_pos hlt] at h
    cases h
  · rw [if_neg hlt] at h
    cases h
    refine ⟨by show 1 ≤ capacity; omega, by simp, by simp, by simp,
        by simp, ?_, ?_, ?_, ?_⟩
    · intro a b hab
      simp [mapLookup] at hab
    · intro a b hab
      simp [mapLookup] at hab
    · intro a b hab
      simp [mapLookup] at hab
    · intro a hab
      simp at hab

end LruSpec

namespace LruSpec

variable {K V : Type} [DecidableEq K]

/-- On an invariant state with a nonempty access map,
`discardLeastRecentlyUsed` succeeds: it unlinks the tail node (which carries
some key `k0`) and deletes `k0` from the access map. -/
theorem discard_success {c : LruCache K V} (hInv : Inv c)
    (hne : c.accessMap.length ≠ 0) :
    ∃ k0 lastv, c.list.getLast? = some (some k0, lastv) ∧
      c.list = c.list.dropLast ++ [(some k0, lastv)] ∧
      mapLookup c.accessMap k0 = some (some k0, lastv) ∧
      discardLeastRecentlyUsed c =
        (true, { c with list := c.list.dropLast,
                        accessMap := (mapDelete c.accessMap k0).2 }) := by
  have hlne : c.list ≠ [] := by
    intro hl
    rw [hInv.lenEq, hl] at hne
    simp at hne
  rcases getLast?_decomp c.list hlne with ⟨last, hlast, hdecomp⟩
  obtain ⟨lastk, lastv⟩ := last
  have hmem : (lastk, lastv) ∈ c.list := by
    rw [hdecomp]
    exact List.mem_append_right _ (List.mem_singleton.mpr rfl)
  rcases hInv.memLookup (lastk, lastv) hmem with ⟨k0, hk0, hl0⟩
  have hk0e : lastk = some k0 := hk0
  subst hk0e
  have hkmem : k0 ∈ c.accessMap.map Prod.fst := by
    rw [← mapLookup_isSome_iff (m := c.accessMap), hl0]
    rfl
  refine ⟨k0, lastv, hlast, hdecomp, hl0, ?_⟩
  have hemp : isEmpty c = false := by
    simp only [isEmpty, size, beq_iff_eq]
    simpa using hne
  have h1 : unlinkFromTail c =
      (c.list.getLast?, { c with list := c.list.dropLast }) := by
    unfold unlinkFromTail
    rw [hemp]
    simp
  have h2 : discardLeastRecentlyUsed c =
      ((mapDelete c.accessMap k0).1,
       { c with list := c.list.dropLast,
                accessMap := (mapDelete c.accessMap k0).2 }) := by
    unfold discardLeastRecentlyUsed
    rw [h1, hlast]
  rw [h2, mapDelete_fst_iff.mpr hkmem]

/-- `put` preserves the invariant. -/
theorem inv_put {c : LruCache K V} {key : Option K} {value : Option V}
    (hInv : Inv c) : Inv (put c key value).1 := by
  cases key with
  | none => exact hInv
  | some k =>
    cases value with
    | none => exact hInv
    | some v =>
      simp only [put]
      cases h : mapLookup c.accessMap k with
      | some nd =>
          dsimp only
          have hk : nd.1 = some k := hInv.lookupKey k nd h
          have ndmem : nd ∈ c.list := hInv.lookupMem k nd h
          have hkmem : k ∈ c.accessMap.map Prod.fst := by
            rw [← mapLookup_isSome_iff (m := c.accessMap), h]
            rfl
          have hInv1 : Inv { c with
              accessMap := mapSet c.accessMap k (nd.1, some v),
              list := setValue c.list nd.1 (some v) } := by
            refine ⟨hInv.capPos, ?_, ?_, ?_, ?_, ?_, ?_, ?_, ?_⟩
            · show (mapSet c.accessMap k (nd.1, some v)).length ≤ c.capacity
              rw [mapSet_length_of_mem hkmem]
              exact hInv.sizeLe
            · show (mapSet c.accessMap k (nd.1, some v)).length =
                (setValue c.list nd.1 (some v)).length
              rw [mapSet_length_of_mem hkmem, setValue_length]
              exact hInv.lenEq
            · show ((mapSet c.accessMap k (nd.1, some v)).map
                Prod.fst).Nodup
              rw [mapSet_keys_of_mem hkmem]
              exact hInv.mapKeysNodup
            · show ((setValue c.list nd.1 (some v)).map Prod.fst).Nodup
              rw [setValue_keys]
              exact hInv.listKeysNodup
            · intro k1 nd2 h2
              by_cases hkk : k1 = k
              · subst hkk
                rw [show mapLookup (mapSet c.accessMap k1 (nd.1, some v)) k1
                    = some (nd.1, some v) from mapSet_lookup_self] at h2
                cases h2
                exact hk
              · rw [show mapLookup (mapSet c.accessMap k (nd.1, some v)) k1
                    = mapLookup c.accessMap k1 from mapSet_lookup_ne hkk]
                    at h2
                exact hInv.lookupKey k1 nd2 h2
            · intro k1 nd2 h2
              by_cases hkk : k1 = k
              · subst hkk
                rw [show mapLookup (mapSet c.accessMap k1 (nd.1, some v)) k1
                    = some (nd.1, some v) from mapSet_lookup_self] at h2
                cases h2
                simp
              · rw [show mapLookup (mapSet c.accessMap k (nd.1, some v)) k1
                    = mapLookup c.accessMap k1 from mapSet_lookup_ne hkk]
                    at h2
                exact hInv.lookupVal k1 nd2 h2
            · intro k1 nd2 h2
              by_cases hkk : k1 = k
              · subst hkk
                rw [show mapLookup (mapSet c.accessMap k1 (nd.1, some v)) k1
                    = some (nd.1, some v) from mapSet_lookup_self] at h2
                cases h2
                have hsv := @setValue_mem K V _ c.list nd.1 (some v) nd ndmem
                rw [if_pos rfl] at hsv
                exact hsv
              · rw [show mapLookup (mapSet c.accessMap k (nd.1, some v)) k1
                    = mapLookup c.accessMap k1 from mapSet_lookup_ne hkk]
                    at h2
                have hne2 : nd2.1 ≠ nd.1 := by
                  rw [hInv.lookupKey k1 nd2 h2, hk]
                  intro hc
                  exact hkk (Option.some.inj hc)
                have hsv := @setValue_mem K V _ c.list nd.1 (some v) nd2
                  (hInv.lookupMem k1 nd2 h2)
                rw [if_neg hne2] at hsv
                exact hsv
            · intro nd2 h2
              rcases setValue_mem_rev h2 with ⟨nd0, h0mem, heq⟩
              rcases hInv.memLookup nd0 h0mem with ⟨k0, hk0, hl0⟩
              by_cases hcase : nd0.1 = nd.1
              · refine ⟨k, ?_, ?_⟩
                · rw [heq, if_pos hcase]
                  exact hcase.trans hk
                · rw [heq, if_pos hcase, hcase]
                  exact mapSet_lookup_self
              · have hkk0 : k0 ≠ k := by
                  intro he
                  subst he
                  rw [h] at hl0
                  cases hl0
                  exact hcase rfl
                refine ⟨k0, ?_, ?_⟩
                · rw [heq, if_neg hcase]
                  exact hk0
                · rw [heq, if_neg hcase,
                    mapSet_lookup_ne hkk0]
                  exact hl0
          exact moveNodeToHead_inv hInv1 (show (nd.1, (some v : Option V)).1
            = some k from hk) mapSet_lookup_self
      | none =>
          dsimp only
          by_cases hlt : size c < c.capacity
          · rw [if_pos hlt]
            have hkeys : k ∉ c.accessMap.map Prod.fst :=
              mapLookup_eq_none_iff.mp h
            have hlk : some k ∉ c.list.map Prod.fst :=
              hInv.key_not_in_list h
            refine ⟨hInv.capPos, ?_, ?_, ?_, ?_, ?_, ?_, ?_, ?_⟩
            · show (mapSet c.accessMap k (some k, some v)).length ≤ c.capacity
              rw [mapSet_length_of_not_mem hkeys]
              have hsz : c.accessMap.length < c.capacity := hlt
              omega
            · show (mapSet c.accessMap k (some k, some v)).length =
                ((some k, some v) :: c.list).length
              rw [mapSet_length_of_not_mem hkeys, List.length_cons,
                hInv.lenEq]
            · show ((mapSet c.accessMap k (some k, some v)).map
                Prod.fst).Nodup
              rw [mapSet_keys_of_not_mem hkeys]
              refine List.Nodup.append hInv.mapKeysNodup
                (List.nodup_singleton k) ?_
              intro a ha hb
              rw [List.mem_singleton] at hb
              subst hb
              exact hkeys ha
            · simp only [List.map_cons, List.nodup_cons]
              exact ⟨hlk, hInv.listKeysNodup⟩
            · intro k1 nd2 h2
              by_cases hkk : k1 = k
              · subst hkk
                rw [mapSet_lookup_self] at h2
                cases h2
                rfl
              · rw [mapSet_lookup_ne hkk] at h2
                exact hInv.lookupKey k1 nd2 h2
            · intro k1 nd2 h2
              by_cases hkk : k1 = k
              · subst hkk
                rw [mapSet_lookup_self] at h2
                cases h2
                simp
              · rw [mapSet_lookup_ne hkk] at h2
                exact hInv.lookupVal k1 nd2 h2
            · intro k1 nd2 h2
              by_cases hkk : k1 = k
              · subst hkk
                rw [mapSet_lookup_self] at h2
                cases h2
                exact List.mem_cons_self _ _
              · rw [mapSet_lookup_ne hkk] at h2
                exact List.mem_cons_of_mem _ (hInv.lookupMem k1 nd2 h2)
            · intro nd2 h2
              rcases List.mem_cons.mp h2 with h3 | h3
              · subst h3
                exact ⟨k, rfl, mapSet_lookup_self⟩
              · rcases hInv.memLookup nd2 h3 with ⟨k1, hk1, hl1⟩
                have hkk : k1 ≠ k := by
                  intro he
                  subst he
                  rw [h] at hl1
                  cases hl1
                exact ⟨k1, hk1, by rw [mapSet_lookup_ne hkk]; exact hl1⟩
          · rw [if_neg hlt]
            have hne0 : c.accessMap.length ≠ 0 := by
              have h1 := hInv.capPos
              have h2 : ¬c.accessMap.length < c.capacity := hlt
              omega
            rcases discard_success hInv hne0 with
              ⟨k0, lastv, hlast, hdecomp, hl0, hd⟩
            rw [hd]
            dsimp only
            have hkk0 : k ≠ k0 := by
              intro he
              subst he
              rw [h] at hl0
              cases hl0
            have hlook1 : mapLookup (mapDelete c.accessMap k0).2 k = none := by
              rw [mapDelete_lookup_ne hkk0]
              exact h
            have hkeys1 : k ∉ ((mapDelete c.accessMap k0).2).map Prod.fst :=
              mapLookup_eq_none_iff.mp hlook1
            have hk0mem : k0 ∈ c.accessMap.map Prod.fst := by
              rw [← mapLookup_isSome_iff (m := c.accessMap), hl0]
              rfl
            have hdl : ((mapDelete c.accessMap k0).2).length + 1 =
                c.accessMap.length := mapDelete_length_of_mem hk0mem
            have hlistlen : c.list.dropLast.length + 1 = c.list.length := by
              conv_rhs => rw [hdecomp]
              simp
            have hnd_map1 : (((mapDelete c.accessMap k0).2).map
                Prod.fst).Nodup :=
              List.Nodup.sublist (List.Sublist.map Prod.fst mapDelete_sublist)
                hInv.mapKeysNodup
            have hnd_list1 : (c.list.dropLast.map Prod.fst).Nodup :=
              List.Nodup.sublist
                (List.Sublist.map Prod.fst (List.dropLast_sublist c.list))
                hInv.listKeysNodup
            have h5 := hInv.listKeysNodup
            rw [hdecomp, List.map_append] at h5
            rcases List.nodup_append.mp h5 with ⟨h5a, h5b, h5c⟩
            have hlastnotin : some k0 ∉ c.list.dropLast.map Prod.fst := by
              intro hmem
              exact h5c hmem (by simp)
            have hk_notin_list : some k ∉ c.list.map Prod.fst :=
              hInv.key_not_in_list h
            have hk_notin_dl : some k ∉ c.list.dropLast.map Prod.fst := by
              intro hm
              exact hk_notin_list (List.Sublist.mem hm
                (List.Sublist.map Prod.fst (List.dropLast_sublist c.list)))
            refine ⟨hInv.capPos, ?_, ?_, ?_, ?_, ?_, ?_, ?_, ?_⟩
            · show (mapSet (mapDelete c.accessMap k0).2 k
                (some k, some v)).length ≤ c.capacity
              rw [mapSet_length_of_not_mem hkeys1]
              have := hInv.sizeLe
              omega
            · show (mapSet (mapDelete c.accessMap k0).2 k
                (some k, some v)).length =
                ((some k, some v) :: c.list.dropLast).length
              rw [mapSet_length_of_not_mem hkeys1, List.length_cons]
              have := hInv.lenEq
              omega
            · show ((mapSet (mapDelete c.accessMap k0).2 k
                (some k, some v)).map Prod.fst).Nodup
              rw [mapSet_keys_of_not_mem hkeys1]
              refine List.Nodup.append hnd_map1 (List.nodup_singleton k) ?_
              intro a ha hb
              rw [List.mem_singleton] at hb
              subst hb
              exact hkeys1 ha
            · simp only [List.map_cons, List.nodup_cons]
              exact ⟨hk_notin_dl, hnd_list1⟩
            · intro k1 nd2 h2
              by_cases hkk : k1 = k
              · subst hkk
                rw [mapSet_lookup_self] at h2
                cases h2
                rfl
              · rw [mapSet_lookup_ne hkk] at h2
                by_cases hk1k0 : k1 = k0
                · subst hk1k0
                  rw [mapDelete_lookup_self hInv.mapKeysNodup] at h2
                  cases h2
                · rw [mapDelete_lookup_ne hk1k0] at h2
                  exact hInv.lookupKey k1 nd2 h2
            · intro k1 nd2 h2
              by_cases hkk : k1 = k
              · subst hkk
                rw [mapSet_lookup_self] at h2
                cases h2
                simp
              · rw [mapSet_lookup_ne hkk] at h2
                by_cases hk1k0 : k1 = k0
                · subst hk1k0
                  rw [mapDelete_lookup_self hInv.mapKeysNodup] at h2
                  cases h2
                · rw [mapDelete_lookup_ne hk1k0] at h2
                  exact hInv.lookupVal k1 nd2 h2
            · intro k1 nd2 h2
              by_cases hkk : k1 = k
              · subst hkk
                rw [mapSet_lookup_self] at h2
                cases h2
                exact List.mem_cons_self _ _
              · rw [mapSet_lookup_ne hkk] at h2
                by_cases hk1k0 : k1 = k0
                · subst hk1k0
                  rw [mapDelete_lookup_self hInv.mapKeysNodup] at h2
                  cases h2
                · rw [mapDelete_lookup_ne hk1k0] at h2
                  have hmem2 : nd2 ∈ c.list := hInv.lookupMem k1 nd2 h2
                  rw [hdecomp] at hmem2
                  rcases List.mem_append.mp hmem2 with h3 | h3
                  · exact List.mem_cons_of_mem _ h3
                  · rw [List.mem_singleton] at h3
                    subst h3
                    have := hInv.lookupKey k1 _ h2
                    simp at this
                    exact absurd this.symm hk1k0
            · intro nd2 h2
              rcases List.mem_cons.mp h2 with h3 | h3
              · subst h3
                exact ⟨k, rfl, mapSet_lookup_self⟩
              · have hmem2 : nd2 ∈ c.list :=
                  List.Sublist.mem h3 (List.dropLast_sublist c.list)
                rcases hInv.memLookup nd2 hmem2 with ⟨k1, hk1, hl1⟩
                have hk1k0 : k1 ≠ k0 := by
                  intro he
                  subst he
                  rw [hl0] at hl1
                  cases hl1
                  exact hlastnotin (List.mem_map_of_mem Prod.fst h3)
                have hkk : k1 ≠ k := by
                  intro he
                  subst he
                  rw [h] at hl1
                  cases hl1
                refine ⟨k1, hk1, ?_⟩
                rw [mapSet_lookup_ne hkk, mapDelete_lookup_ne hk1k0]
                exact hl1

/-- Every reachable state satisfies the internal invariant. -/
theorem reachable_inv {c : LruCache K V} (h : Reachable c) : Inv c := by
  induction h with
  | init capacity c h => exact inv_mk h
  | putStep c key value h ih => exact inv_put ih
  | getStep c k h ih => exact inv_get ih
  | deleteStep c k h ih => exact inv_delete ih
  | resetStep c h ih => exact inv_reset ih

end LruSpec

namespace LruSpec

variable {K V : Type} [DecidableEq K]

/-- After a `put` of a proper key and value on an invariant state, no
exception is thrown and the key maps to a node carrying the key and the
value. -/
theorem put_lookup_self {c : LruCache K V} (hInv : Inv c) (k : K) (v : V) :
    (put c (some k) (some v)).2 = none ∧
    mapLookup ((put c (some k) (some v)).1).accessMap k =
      some (some k, some v) := by
  simp only [put]
  cases h : mapLookup c.accessMap k with
  | some nd =>
      dsimp only
      refine ⟨rfl, ?_⟩
      rw [(moveNodeToHead_accessMap).1]
      show mapLookup (mapSet c.accessMap k (nd.1, some v)) k =
        some (some k, some v)
      rw [hInv.lookupKey k nd h]
      exact mapSet_lookup_self
  | none =>
      dsimp only
      by_cases hlt : size c < c.capacity
      · rw [if_pos hlt]
        exact ⟨rfl, mapSet_lookup_self⟩
      · rw [if_neg hlt]
        have hne0 : c.accessMap.length ≠ 0 := by
          have h1 := hInv.capPos
          have h2 : ¬c.accessMap.length < c.capacity := hlt
          omega
        rcases discard_success hInv hne0 with ⟨k0, lastv, _, _, _, hd⟩
        rw [hd]
        exact ⟨rfl, mapSet_lookup_self⟩

/- Concrete states used by the witnesses below. -/

def emptyOne : LruCache Nat Nat := { capacity := 1, list := [], accessMap := [] }

def emptyTwo : LruCache Nat Nat := { capacity := 2, list := [], accessMap := [] }

def oneEntryTwo : LruCache Nat Nat := (put emptyTwo (some 1) (some 10)).1

def fullOne : LruCache Nat Nat := (put emptyOne (some 1) (some 10)).1

theorem emptyTwo_reachable : Reachable emptyTwo :=
  Reachable.init 2 _ rfl

theorem oneEntryTwo_reachable : Reachable oneEntryTwo :=
  Reachable.putStep _ _ _ emptyTwo_reachable

theorem fullOne_reachable : Reachable fullOne :=
  Reachable.putStep _ _ _ (Reachable.init 1 _ rfl)

/-- Claim C6: on every cache state and every value (the absent marker
included), `put` called with the reserved absent marker (`undefined`,
modelled `none`) as its key fails with the `InvalidKey` error and returns
the state completely unchanged: same size, no entry created, updated or
repositioned. -/
theorem put_undefined_key_rejected (c : LruCache K V) (v : Option V) :
    put c none v = (c, some PutError.invalidKey) := rfl

/-- Claim C7: on every cache state and every proper key, `put` with the
reserved absent value marker (`undefined`, modelled `none`) as its value is
a no-op: it returns normally (no error) and the state is unchanged, so no
entry is created or updated, no recency position changes and the size is
unchanged, even when the key is already present. -/
theorem put_undefined_value_noop (c : LruCache K V) (k : K) :
    put c (some k) none = (c, none) := rfl

/-- Claim C10: `get` of a key that is not present returns the miss
indicator and leaves the entire cache state unchanged (a miss is not a
use). -/
theorem get_miss_frame (c : LruCache K V) (k : K)
    (h : mapLookup c.accessMap k = none) : get c k = (none, c) := by
  unfold get
  rw [h]

theorem get_miss_frame_witness :
    get oneEntryTwo 0 = (none, oneEntryTwo) :=
  get_miss_frame oneEntryTwo 0 rfl

/-- Claim C3: on every state reachable from construction by any sequence of
`put`, `get`, `delete` and `reset` calls, `0 ≤ size ≤ capacity`, where
`size` is the entry count of the access map and `capacity` the
constructor's integer. -/
theorem size_bounded_of_reachable {c : LruCache K V} (h : Reachable c) :
    0 ≤ size c ∧ size c ≤ c.capacity :=
  ⟨Nat.zero_le _, (reachable_inv h).sizeLe⟩

theorem size_bounded_of_reachable_witness :
    0 ≤ size oneEntryTwo ∧ size oneEntryTwo ≤ oneEntryTwo.capacity :=
  size_bounded_of_reachable oneEntryTwo_reachable

/-- Claim C4: on every reachable state the size equals the number of
non-sentinel nodes on the list walked from head to tail, a key is present
in the access map iff a non-sentinel node carrying that key is on the list,
and each mapped node's key field equals its mapping's key; every operation
preserves this because every reachable state satisfies it. -/
theorem index_list_correspondence {c : LruCache K V} (h : Reachable c) :
    size c = c.list.length ∧
    (∀ k : K, (∃ nd, mapLookup c.accessMap k = some nd) ↔
        ∃ nd ∈ c.list, nd.1 = some k) ∧
    (∀ k nd, mapLookup c.accessMap k = some nd → nd.1 = some k) := by
  have hInv := reachable_inv h
  refine ⟨hInv.lenEq, ?_, hInv.lookupKey⟩
  intro k
  constructor
  · rintro ⟨nd, hnd⟩
    exact ⟨nd, hInv.lookupMem k nd hnd, hInv.lookupKey k nd hnd⟩
  · rintro ⟨nd, hmem, hk⟩
    rcases hInv.memLookup nd hmem with ⟨k1, hk1, hl1⟩
    have hkeq : k1 = k := Option.some.inj (hk1.symm.trans hk)
    subst hkeq
    exact ⟨nd, hl1⟩

theorem index_list_correspondence_witness :
    size oneEntryTwo = oneEntryTwo.list.length ∧
    (∀ k : Nat, (∃ nd, mapLookup oneEntryTwo.accessMap k = some nd) ↔
        ∃ nd ∈ oneEntryTwo.list, nd.1 = some k) ∧
    (∀ k nd, mapLookup oneEntryTwo.accessMap k = some nd →
        nd.1 = some k) :=
  index_list_correspondence oneEntryTwo_reachable

end LruSpec

namespace LruSpec

variable {K V : Type} [DecidableEq K]

/-- Claim C2: on every reachable state, putting any proper key with any
proper value (`null` included, since `V` ranges over all storable values)
throws no error, and an immediately following `get` of that key returns
that value. -/
theorem put_get_roundtrip {c : LruCache K V} (h : Reachable c)
    (k : K) (v : V) :
    (put c (some k) (some v)).2 = none ∧
    (get (put c (some k) (some v)).1 k).1 = some v := by
  rcases put_lookup_self (reachable_inv h) k v with ⟨h1, h2⟩
  refine ⟨h1, ?_⟩
  unfold get
  rw [h2]

theorem put_get_roundtrip_witness :
    (put oneEntryTwo (some 5) (some 50)).2 = none ∧
    (get (put oneEntryTwo (some 5) (some 50)).1 5).1 = some 50 :=
  put_get_roundtrip oneEntryTwo_reachable 5 50

/-- Claim C9: on every reachable state, `get` returns the absent indicator
exactly when the key has no mapping, and no listed entry ever stores the
absent marker as its value, so the miss indicator is observably distinct
from every stored value. -/
theorem get_miss_indicator_iff {c : LruCache K V} (h : Reachable c)
    (k : K) :
    ((get c k).1 = none ↔ mapLookup c.accessMap k = none) ∧
    ∀ nd ∈ c.list, nd.2 ≠ none := by
  have hInv := reachable_inv h
  constructor
  · cases h0 : mapLookup c.accessMap k with
    | none => simp [get, h0]
    | some nd =>
        simp only [get, h0]
        constructor
        · intro hval
          exact absurd hval (hInv.lookupVal k nd h0)
        · intro hc
          cases hc
  · intro nd hmem
    rcases hInv.memLookup nd hmem with ⟨k1, hk1, hl1⟩
    exact hInv.lookupVal k1 nd hl1

theorem get_miss_indicator_iff_witness :
    ((get oneEntryTwo 1).1 = none ↔
      mapLookup oneEntryTwo.accessMap 1 = none) ∧
    ∀ nd ∈ oneEntryTwo.list, nd.2 ≠ none :=
  get_miss_indicator_iff oneEntryTwo_reachable 1

/-- `delete` of a key with no mapping returns the miss indicator and leaves
the state untouched. -/
theorem delete_miss (c : LruCache K V) (k : K)
    (h : mapLookup c.accessMap k = none) : delete c k = (none, c) := by
  unfold delete
  rw [h]

/-- Claim C8: on every reachable state and key, a missing key deletes
nothing and returns the absent indicator; a present key's node is unlinked
from the list (and no other node is removed), the key is removed from the
index, and the node's value is returned (never the absent marker, though
possibly null); afterwards a `get` of the key misses, and a second
`delete` returns the absent indicator without changing the state. -/
theorem delete_spec {c : LruCache K V} (h : Reachable c) (k : K) :
    (mapLookup c.accessMap k = none → delete c k = (none, c)) ∧
    (∀ nd, mapLookup c.accessMap k = some nd →
      (delete c k).1 = nd.2 ∧ nd.2 ≠ none ∧
      (∀ nd2 ∈ ((delete c k).2).list, nd2.1 ≠ some k) ∧
      (∀ nd2 ∈ c.list, nd2.1 ≠ some k → nd2 ∈ ((delete c k).2).list) ∧
      mapLookup ((delete c k).2).accessMap k = none) ∧
    (get ((delete c k).2) k).1 = none ∧
    delete ((delete c k).2) k = (none, (delete c k).2) := by
  have hInv := reachable_inv h
  have hafter : mapLookup ((delete c k).2).accessMap k = none := by
    unfold delete
    cases h0 : mapLookup c.accessMap k with
    | none => exact h0
    | some nd => exact mapDelete_lookup_self hInv.mapKeysNodup
  refine ⟨fun h0 => delete_miss c k h0, ?_, ?_, delete_miss _ k hafter⟩
  · intro nd h0
    have hk : nd.1 = some k := hInv.lookupKey k nd h0
    have hfst : (delete c k).1 = nd.2 := by
      unfold delete
      rw [h0]
    have hlist : ((delete c k).2).list = eraseNode c.list nd.1 := by
      unfold delete
      rw [h0]
    refine ⟨hfst, hInv.lookupVal k nd h0, ?_, ?_, hafter⟩
    · intro nd2 hmem
      rw [hlist] at hmem
      rw [← hk]
      exact eraseNode_key_ne hInv.listKeysNodup hmem
    · intro nd2 hmem hne
      rw [hlist]
      refine eraseNode_mem hmem ?_
      rw [hk]
      exact hne
  · unfold get
    rw [hafter]

theorem delete_spec_witness :
    (mapLookup oneEntryTwo.accessMap 1 = none →
      delete oneEntryTwo 1 = (none, oneEntryTwo)) ∧
    (∀ nd, mapLookup oneEntryTwo.accessMap 1 = some nd →
      (delete oneEntryTwo 1).1 = nd.2 ∧ nd.2 ≠ none ∧
      (∀ nd2 ∈ ((delete oneEntryTwo 1).2).list, nd2.1 ≠ some 1) ∧
      (∀ nd2 ∈ oneEntryTwo.list, nd2.1 ≠ some 1 →
        nd2 ∈ ((delete oneEntryTwo 1).2).list) ∧
      mapLookup ((delete oneEntryTwo 1).2).accessMap 1 = none) ∧
    (get ((delete oneEntryTwo 1).2) 1).1 = none ∧
    delete ((delete oneEntryTwo 1).2) 1 = (none, (delete oneEntryTwo 1).2) :=
  delete_spec oneEntryTwo_reachable 1

/-- Claim C1: on every reachable full state (`size = capacity`), a `put` of
a key with no mapping and a proper value throws no error, removes exactly
the tail (least-recently-used) entry from both the list and the index and
no other entry, inserts the new entry at the front of the list and into the
index, and leaves the size equal to the capacity. -/
theorem put_evicts_lru {c : LruCache K V} {k : K} (v : V)
    (h : Reachable c) (hfull : size c = c.capacity)
    (hnew : mapLookup c.accessMap k = none) :
    ∃ k0 lastv, c.list.getLast? = some (some k0, lastv) ∧
      (put c (some k) (some v)).2 = none ∧
      ((put c (some k) (some v)).1).list =
        (some k, some v) :: c.list.dropLast ∧
      mapLookup ((put c (some k) (some v)).1).accessMap k =
        some (some k, some v) ∧
      (∀ k1, k1 ≠ k →
        mapLookup ((put c (some k) (some v)).1).accessMap k1 =
          if k1 = k0 then none else mapLookup c.accessMap k1) ∧
      size ((put c (some k) (some v)).1) = c.capacity := by
  have hInv := reachable_inv h
  have hne0 : c.accessMap.length ≠ 0 := by
    have h1 := hInv.capPos
    have h2 : c.accessMap.length = c.capacity := hfull
    omega
  rcases discard_success hInv hne0 with ⟨k0, lastv, hlast, hdecomp, hl0, hd⟩
  have hnotlt : ¬size c < c.capacity := by
    rw [hfull]
    exact lt_irrefl _
  have hput : put c (some k) (some v) =
      ({ capacity := c.capacity,
         list := (some k, some v) :: c.list.dropLast,
         accessMap := mapSet (mapDelete c.accessMap k0).2 k
           (some k, some v) }, none) := by
    simp only [put]
    rw [hnew]
    dsimp only
    rw [if_neg hnotlt, hd]
  have hkk0 : k ≠ k0 := by
    intro he
    subst he
    rw [hnew] at hl0
    cases hl0
  have hk0mem : k0 ∈ c.accessMap.map Prod.fst := by
    rw [← mapLookup_isSome_iff (m := c.accessMap), hl0]
    rfl
  have hkeys1 : k ∉ ((mapDelete c.accessMap k0).2).map Prod.fst := by
    apply mapLookup_eq_none_iff.mp
    rw [mapDelete_lookup_ne hkk0]
    exact hnew
  refine ⟨k0, lastv, hlast, ?_, ?_, ?_, ?_, ?_⟩
  · rw [hput]
  · rw [hput]
  · rw [hput]
    exact mapSet_lookup_self
  · intro k1 hk1
    rw [hput]
    dsimp only
    rw [mapSet_lookup_ne hk1]
    by_cases hc : k1 = k0
    · rw [if_pos hc, hc]
      exact mapDelete_lookup_self hInv.mapKeysNodup
    · rw [if_neg hc]
      exact mapDelete_lookup_ne hc
  · rw [hput]
    show (mapSet (mapDelete c.accessMap k0).2 k
      (some k, some v)).length = c.capacity
    rw [mapSet_length_of_not_mem hkeys1]
    have h3 := mapDelete_length_of_mem (k := k0) hk0mem
    have h4 : c.accessMap.length = c.capacity := hfull
    omega

theorem put_evicts_lru_witness :
    ∃ k0 lastv, fullOne.list.getLast? = some (some k0, lastv) ∧
      (put fullOne (some 2) (some 20)).2 = none ∧
      ((put fullOne (some 2) (some 20)).1).list =
        (some 2, some 20) :: fullOne.list.dropLast ∧
      mapLookup ((put fullOne (some 2) (some 20)).1).accessMap 2 =
        some (some 2, some 20) ∧
      (∀ k1, k1 ≠ 2 →
        mapLookup ((put fullOne (some 2) (some 20)).1).accessMap k1 =
          if k1 = k0 then none else mapLookup fullOne.accessMap k1) ∧
      size ((put fullOne (some 2) (some 20)).1) = fullOne.capacity :=
  put_evicts_lru 20 fullOne_reachable rfl rfl

end LruSpec

namespace LruSpec

variable {K V : Type} [DecidableEq K]

/-- Modelled from the spec: the iteration capability of the cache.  The
repository's README documents that the cache is iterable with a for-of loop
yielding `[key, value]` entries, but the iterator member itself is missing
from the source snapshot.  Per the spec the iteration is a finite sequence
of the (key, value) pairs front-to-back of the recency list (MRU→LRU), and
iterating does not mutate the cache, so the result pairs the sequence with
the unchanged state. -/
def iterateEntries (c : LruCache K V) : List (K × V) × LruCache K V :=
  (c.list.filterMap (fun nd =>
    match nd.1, nd.2 with
    | some k, some v => some (k, v)
    | _, _ => none), c)

/-- On a list whose nodes all carry a key and a value, the iteration
sequence is exactly the list of nodes in order. -/
theorem filterMap_nodes {l : List (Node K V)}
    (h : ∀ nd ∈ l, (∃ k, nd.1 = some k) ∧ nd.2 ≠ none) :
    (l.filterMap (fun nd =>
      match nd.1, nd.2 with
      | some k, some v => some (k, v)
      | _, _ => none)).map
      (fun p => ((some p.1 : Option K), (some p.2 : Option V))) = l := by
  induction l with
  | nil => simp
  | cons nd rest ih =>
      obtain ⟨ko, vo⟩ := nd
      rcases h (ko, vo) (List.mem_cons_self _ _) with ⟨⟨k1, hk1⟩, hv⟩
      cases ko with
      | none => cases hk1
      | some k2 =>
          cases vo with
          | none => exact absurd rfl hv
          | some v2 =>
              simp only [List.filterMap_cons]
              rw [List.map_cons,
                ih (fun nd hm => h nd (List.mem_cons_of_mem _ hm))]

/-- Claim C5: the cache offers an iteration producing a finite sequence of
the cached (key, value) pairs in MRU→LRU order, i.e. exactly the
front-to-back contents of the recency list, of length `size`; iterating
returns the cache state unchanged (no recency mutation), and as a pure
function of the state the sequence is restartable.  The iteration itself is
modelled from the spec, since the iterator member is missing from the
source snapshot. -/
theorem iteration_mru_lru {c : LruCache K V} (h : Reachable c) :
    (iterateEntries c).2 = c ∧
    ((iterateEntries c).1.map
      (fun p => ((some p.1 : Option K), (some p.2 : Option V)))) =
      c.list ∧
    (iterateEntries c).1.length = size c := by
  have hInv := reachable_inv h
  have hall : ∀ nd ∈ c.list, (∃ k, nd.1 = some k) ∧ nd.2 ≠ none := by
    intro nd hmem
    rcases hInv.memLookup nd hmem with ⟨k1, hk1, hl1⟩
    exact ⟨⟨k1, hk1⟩, hInv.lookupVal k1 nd hl1⟩
  have hmap := filterMap_nodes hall
  refine ⟨rfl, hmap, ?_⟩
  have hlen := congrArg List.length hmap
  rw [List.length_map] at hlen
  show (c.list.filterMap (fun nd =>
    match nd.1, nd.2 with
    | some k, some v => some (k, v)
    | _, _ => none)).length = size c
  rw [hlen]
  exact hInv.lenEq.symm

theorem iteration_mru_lru_witness :
    (iterateEntries oneEntryTwo).2 = oneEntryTwo ∧
    ((iterateEntries oneEntryTwo).1.map
      (fun p => ((some p.1 : Option Nat), (some p.2 : Option Nat)))) =
      oneEntryTwo.list ∧
    (iterateEntries oneEntryTwo).1.length = size oneEntryTwo :=
  iteration_mru_lru oneEntryTwo_reachable

end LruSpec
